import Mathlib

/-!
Verification of the model-checker repository against its natural-language
specification.  The development shallowly embeds, in Lean 4:

* the Linux reader/writer lock test program `src/test/linuxrwlocks.c`
  (pure state-transformer semantics over mathematical integers with
  explicit 32-bit wrap-around), and
* the execution-exploration engine described by the specification.  The
  repository snapshot ships only the header `src/model.h` (declarations)
  for the engine, so the bodies of its member functions are modelled from
  the specification text; every such definition carries a doc comment
  starting with "Modelled from the spec:".
-/

/- ===================================================================
   Part 1.  The reader/writer lock of src/test/linuxrwlocks.c.
   The lock word is a C `int`; atomic fetch_add/fetch_sub wrap around
   modulo 2^32 in two's complement.  Each function is embedded as a pure
   function from the current lock value to (return value, new lock value).
   =================================================================== -/

/-- `RW_LOCK_BIAS` from linuxrwlocks.c (0x00100000). -/
def RW_LOCK_BIAS : Int := 0x00100000

/-- Two's-complement wrap of an integer into the 32-bit signed range,
as performed by atomic arithmetic on a C `int`. -/
def wrap32 (n : Int) : Int := (n + 2 ^ 31) % 2 ^ 32 - 2 ^ 31

/-- `atomic_fetch_sub_explicit(&l, v, ...)`: returns the previous value and
the new (wrapped) value of the location. -/
def atomic_fetch_sub (lock v : Int) : Int × Int := (lock, wrap32 (lock - v))

/-- `atomic_fetch_add_explicit(&l, v, ...)`: returns the previous value and
the new (wrapped) value of the location. -/
def atomic_fetch_add (lock v : Int) : Int × Int := (lock, wrap32 (lock + v))

/-- `read_can_lock` from linuxrwlocks.c: the load returns the current lock
value; the function returns the C truth value of `value > 0`. -/
def read_can_lock (lock : Int) : Int := if lock > 0 then 1 else 0

/-- `write_can_lock` from linuxrwlocks.c: the C truth value of
`value == RW_LOCK_BIAS`. -/
def write_can_lock (lock : Int) : Int := if lock = RW_LOCK_BIAS then 1 else 0

/-- `read_trylock` from linuxrwlocks.c: fetch_sub 1; if the previous value
was nonnegative return 1, otherwise add the 1 back and return 0.  Result is
(return value, final lock value). -/
def read_trylock (lock : Int) : Int × Int :=
  let fs := atomic_fetch_sub lock 1
  let currentvalue := fs.1
  if currentvalue ≥ 0 then (1, fs.2)
  else (0, (atomic_fetch_add fs.2 1).2)

/-- `write_trylock` from linuxrwlocks.c: fetch_sub RW_LOCK_BIAS; if the
previous value was nonnegative return 1, otherwise add the bias back and
return 0.  Result is (return value, final lock value). -/
def write_trylock (lock : Int) : Int × Int :=
  let fs := atomic_fetch_sub lock RW_LOCK_BIAS
  let currentvalue := fs.1
  if currentvalue ≥ 0 then (1, fs.2)
  else (0, (atomic_fetch_add fs.2 RW_LOCK_BIAS).2)

/-- `read_unlock` from linuxrwlocks.c. -/
def read_unlock (lock : Int) : Int := wrap32 (lock + 1)

/-- `write_unlock` from linuxrwlocks.c. -/
def write_unlock (lock : Int) : Int := wrap32 (lock + RW_LOCK_BIAS)

/-- Claim C8: `write_trylock` returns 1 exactly when the lock value read by
its fetch_sub was nonnegative; in particular for every prior value `v` with
`0 ≤ v < RW_LOCK_BIAS` (readers hold the lock) it still returns 1,
reporting the write lock as acquired. -/
theorem write_trylock_returns_one_iff_nonneg :
    (∀ v : Int, (write_trylock v).1 = 1 ↔ 0 ≤ v) ∧
    (∀ v : Int, 0 ≤ v → v < RW_LOCK_BIAS → (write_trylock v).1 = 1) := by
  constructor
  · intro v
    simp only [write_trylock, atomic_fetch_sub, atomic_fetch_add]
    split
    · simp; omega
    · simp; omega
  · intro v h0 _
    simp only [write_trylock, atomic_fetch_sub, atomic_fetch_add]
    split
    · rfl
    · omega

theorem write_trylock_returns_one_iff_nonneg_witness :
    0 ≤ (5 : Int) ∧ (5 : Int) < RW_LOCK_BIAS ∧ (write_trylock 5).1 = 1 :=
  ⟨by decide, by decide,
    write_trylock_returns_one_iff_nonneg.2 5 (by decide) (by decide)⟩

/-- Claim C9: whenever `read_trylock` or `write_trylock` returns 0, the net
effect on the lock word is zero: the final lock value equals the initial
one (the amount subtracted by the fetch_sub is added back). -/
theorem trylock_failure_has_zero_net_effect :
    ∀ v : Int, -(2 ^ 31) ≤ v → v < 2 ^ 31 →
      ((read_trylock v).1 = 0 → (read_trylock v).2 = v) ∧
      ((write_trylock v).1 = 0 → (write_trylock v).2 = v) := by
  intro v hlo hhi
  constructor
  · intro h
    by_cases hc : v ≥ 0
    · simp [read_trylock, atomic_fetch_sub, hc] at h
    · simp [read_trylock, atomic_fetch_sub, atomic_fetch_add, wrap32, hc]
      omega
  · intro h
    by_cases hc : v ≥ 0
    · simp [write_trylock, atomic_fetch_sub, hc] at h
    · simp [write_trylock, atomic_fetch_sub, atomic_fetch_add, wrap32,
        RW_LOCK_BIAS, hc]
      omega

theorem trylock_failure_has_zero_net_effect_witness :
    (read_trylock (-1)).2 = -1 ∧ (write_trylock (-1)).2 = -1 :=
  ⟨(trylock_failure_has_zero_net_effect (-1) (by decide) (by decide)).1
      (by decide),
   (trylock_failure_has_zero_net_effect (-1) (by decide) (by decide)).2
      (by decide)⟩

/- ===================================================================
   Part 2.  The modification-order graph (CycleGraph) and its acyclicity
   invariant.  src/model.h only declares `CycleGraph *mo_graph` and
   documents it; the class body is not part of the snapshot.
   =================================================================== -/

/-- Successors of a vertex in an edge list. -/
def succs (es : List (Nat × Nat)) (u : Nat) : List Nat :=
  (es.filter (fun e => e.1 == u)).map (fun e => e.2)

/-- Fuel-bounded reachability: `reachN es fuel u v` decides whether `v` can
be reached from `u` by at most `fuel` edges of `es` (including zero). -/
def reachN (es : List (Nat × Nat)) : Nat → Nat → Nat → Bool
  | 0, u, v => u == v
  | fuel + 1, u, v => u == v || (succs es u).any (fun w => reachN es fuel w v)

/-- Modelled from the spec: `CycleGraph::checkReachable`; reachability in
the mo graph, computed by search bounded by the number of edges (which
suffices on the acyclic graphs the checker maintains). -/
def checkReachable (es : List (Nat × Nat)) (u v : Nat) : Bool :=
  reachN es es.length u v

/-- Modelled from the spec: the state of the checker's mo graph, the
"directed acyclic graph recording observations of the modification order"
of src/model.h, together with the cycle flag raised when an inserted edge
would create a cycle. -/
structure CycleGraph where
  edges : List (Nat × Nat)
  hasCycle : Bool
deriving DecidableEq

/-- Modelled from the spec: `CycleGraph::addEdge(from, to)` "inserts a
directed edge; returns false if a cycle would be created (detected by
reverse-reachability from `to` to `from`), in which case the edge is still
recorded but the cycle flag is raised for the current execution". -/
def CycleGraph.addEdge (g : CycleGraph) (u v : Nat) : Bool × CycleGraph :=
  if checkReachable g.edges v u then
    (false, { edges := (u, v) :: g.edges, hasCycle := true })
  else
    (true, { edges := (u, v) :: g.edges, hasCycle := g.hasCycle })

/-- The empty mo graph, as reconstructed at the start of each execution. -/
def CycleGraph.empty : CycleGraph := { edges := [], hasCycle := false }

/-- Modelled from the spec: the mo graph obtained by processing a sequence
of edge insertions during one execution, starting from the empty graph. -/
def applyEdges (ops : List (Nat × Nat)) : CycleGraph :=
  ops.foldl (fun g e => (g.addEdge e.1 e.2).2) CycleGraph.empty

/-- `Ch es u l v`: the vertex sequence `u :: l ++ [v]` is a nonempty chain
of edges of `es` (a path with at least one edge). -/
def Ch (es : List (Nat × Nat)) : Nat → List Nat → Nat → Prop
  | u, [], v => (u, v) ∈ es
  | u, c :: l, v => (u, c) ∈ es ∧ Ch es c l v

/-- A nonempty directed path in the edge list. -/
def MoPath (es : List (Nat × Nat)) (u v : Nat) : Prop := ∃ l, Ch es u l v

/-- Acyclicity of an edge list: no nonempty path from a vertex to itself. -/
def Acyclic (es : List (Nat × Nat)) : Prop := ∀ u l, ¬ Ch es u l u

theorem acyclic_nil : Acyclic [] := by
  intro u l h
  cases l with
  | nil => simp [Ch] at h
  | cons c l => simp [Ch] at h

theorem ch_concat {es : List (Nat × Nat)} {u v w : Nat} {l m : List Nat}
    (h1 : Ch es u l v) (h2 : Ch es v m w) : Ch es u (l ++ v :: m) w := by
  induction l generalizing u with
  | nil => exact ⟨h1, h2⟩
  | cons c l ih => exact ⟨h1.1, ih h1.2⟩

theorem mopath_trans {es : List (Nat × Nat)} {u v w : Nat}
    (h1 : MoPath es u v) (h2 : MoPath es v w) : MoPath es u w := by
  obtain ⟨l, hl⟩ := h1
  obtain ⟨m, hm⟩ := h2
  exact ⟨l ++ v :: m, ch_concat hl hm⟩

theorem ch_chop {es : List (Nat × Nat)} {u v x : Nat} {p q : List Nat}
    (h : Ch es u (p ++ x :: q) v) : Ch es u p x := by
  induction p generalizing u with
  | nil => exact h.1
  | cons d p ih => exact ⟨h.1, ih h.2⟩

/-- On an acyclic edge list every chain visits pairwise-distinct
vertices. -/
theorem ch_nodup {es : List (Nat × Nat)} (ha : Acyclic es) :
    ∀ {u v : Nat} {l : List Nat}, Ch es u l v → (u :: l ++ [v]).Nodup := by
  intro u v l
  induction l generalizing u with
  | nil =>
    intro h
    have : u ≠ v := by
      intro he
      exact ha u [] (by simpa [Ch, he] using h)
    simp [this]
  | cons c l ih =>
    intro h
    have hedge : (u, c) ∈ es := h.1
    have htail := ih h.2
    have hnotin : u ∉ c :: l ++ [v] := by
      intro hmem
      rcases List.mem_cons.1 hmem with hm | hm
      · exact ha u [] (by simpa [Ch, ← hm] using hedge)
      · rcases List.mem_append.1 hm with hm2 | hm2
        · obtain ⟨p, q, rfl⟩ := List.append_of_mem hm2
          have hcp : Ch es c p u := ch_chop h.2
          exact ha u (c :: p) ⟨hedge, hcp⟩
        · have huv : u = v := by simpa using hm2
          exact ha u (c :: l) (by simpa [huv] using h)
    exact List.nodup_cons.2 ⟨hnotin, htail⟩

/-- The list of edges traversed by a chain. -/
def edgesOfCh : Nat → List Nat → Nat → List (Nat × Nat)
  | u, [], v => [(u, v)]
  | u, c :: l, v => (u, c) :: edgesOfCh c l v

theorem edgesOfCh_length (u : Nat) (l : List Nat) (v : Nat) :
    (edgesOfCh u l v).length = l.length + 1 := by
  induction l generalizing u with
  | nil => rfl
  | cons c l ih => simp [edgesOfCh, ih]

theorem edgesOfCh_subset {es : List (Nat × Nat)} {u v : Nat} {l : List Nat}
    (h : Ch es u l v) : edgesOfCh u l v ⊆ es := by
  induction l generalizing u with
  | nil =>
    intro e he
    simp [edgesOfCh] at he
    simpa [he] using h
  | cons c l ih =>
    intro e he
    rcases List.mem_cons.1 he with hm | hm
    · simpa [hm] using h.1
    · exact ih h.2 hm

theorem edgesOfCh_fst_mem {u v x y : Nat} {l : List Nat}
    (h : (x, y) ∈ edgesOfCh u l v) : x ∈ u :: l := by
  induction l generalizing u with
  | nil =>
    simp [edgesOfCh] at h
    simp [h.1]
  | cons c l ih =>
    rcases List.mem_cons.1 h with hm | hm
    · have hxu : x = u := congrArg Prod.fst hm
      simp [hxu]
    · exact List.mem_cons.2 (Or.inr (ih hm))

theorem edgesOfCh_nodup {u v : Nat} {l : List Nat}
    (h : (u :: l ++ [v]).Nodup) : (edgesOfCh u l v).Nodup := by
  induction l generalizing u with
  | nil => simp [edgesOfCh]
  | cons c l ih =>
    have htail : (c :: l ++ [v]).Nodup := (List.nodup_cons.1 h).2
    have hu : u ∉ (c :: l ++ [v]) := (List.nodup_cons.1 h).1
    refine List.nodup_cons.2 ⟨?_, ih htail⟩
    intro hmem
    have hufst : u ∈ c :: l := edgesOfCh_fst_mem hmem
    apply hu
    rcases List.mem_cons.1 hufst with he | hm
    · exact List.mem_cons.2 (Or.inl he)
    · exact List.mem_cons.2 (Or.inr (List.mem_append.2 (Or.inl hm)))

/-- On an acyclic edge list the length of any chain is bounded by the
number of edges: its traversed edges are pairwise distinct members of
`es`. -/
theorem ch_length_le {es : List (Nat × Nat)} (ha : Acyclic es)
    {u v : Nat} {l : List Nat} (h : Ch es u l v) :
    l.length + 1 ≤ es.length := by
  have hsub : edgesOfCh u l v ⊆ es := edgesOfCh_subset h
  have hnd : (edgesOfCh u l v).Nodup := edgesOfCh_nodup (ch_nodup ha h)
  have := (List.subperm_of_subset hnd hsub).length_le
  simpa [edgesOfCh_length] using this

theorem reachN_refl (es : List (Nat × Nat)) (fuel u : Nat) :
    reachN es fuel u u = true := by
  cases fuel with
  | zero => simp [reachN]
  | succ f => simp [reachN]

theorem mem_succs {es : List (Nat × Nat)} {u v : Nat} (h : (u, v) ∈ es) :
    v ∈ succs es u := by
  simp only [succs, List.mem_map, List.mem_filter]
  exact ⟨(u, v), ⟨h, by simp⟩, rfl⟩

/-- Completeness of fuel-bounded reachability: a chain of `n` edges is found
with any fuel of at least `n`. -/
theorem reachN_complete {es : List (Nat × Nat)} {u v : Nat} {l : List Nat}
    (h : Ch es u l v) :
    ∀ fuel, l.length + 1 ≤ fuel → reachN es fuel u v = true := by
  induction l generalizing u with
  | nil =>
    intro fuel hf
    cases fuel with
    | zero => omega
    | succ f =>
      simp only [reachN, Bool.or_eq_true, List.any_eq_true]
      exact Or.inr ⟨v, mem_succs h, reachN_refl es f v⟩
  | cons c l ih =>
    intro fuel hf
    cases fuel with
    | zero => omega
    | succ f =>
      simp only [reachN, Bool.or_eq_true, List.any_eq_true]
      exact Or.inr ⟨c, mem_succs h.1, ih h.2 f (by simpa using Nat.lt_succ_iff.1 hf)⟩

/-- On acyclic edge lists `checkReachable` finds every path. -/
theorem checkReachable_complete {es : List (Nat × Nat)} (ha : Acyclic es)
    {u v : Nat} (h : MoPath es u v) : checkReachable es u v = true := by
  obtain ⟨l, hl⟩ := h
  exact reachN_complete hl es.length (ch_length_le ha hl)

/-- Soundness of fuel-bounded reachability. -/
theorem reachN_sound {es : List (Nat × Nat)} :
    ∀ {fuel u v : Nat}, reachN es fuel u v = true → u = v ∨ MoPath es u v := by
  intro fuel
  induction fuel with
  | zero =>
    intro u v h
    exact Or.inl (by simpa [reachN] using h)
  | succ f ih =>
    intro u v h
    simp only [reachN, Bool.or_eq_true, List.any_eq_true] at h
    rcases h with h | ⟨w, hw, hr⟩
    · exact Or.inl (by simpa using h)
    · have hedge : (u, w) ∈ es := by
        simp only [succs, List.mem_map, List.mem_filter] at hw
        obtain ⟨e, ⟨he, heq⟩, rfl⟩ := hw
        have : e.1 = u := by simpa using heq
        simpa [← this] using he
      rcases ih hr with rfl | ⟨m, hm⟩
      · exact Or.inr ⟨[], hedge⟩
      · exact Or.inr ⟨w :: m, hedge, hm⟩

theorem checkReachable_sound {es : List (Nat × Nat)} {u v : Nat}
    (h : checkReachable es u v = true) : u = v ∨ MoPath es u v :=
  reachN_sound h

/-- Factoring a path in `(a,b) :: es` at the first use of the new edge. -/
theorem ch_factor_src {a b : Nat} {es : List (Nat × Nat)} :
    ∀ {u v : Nat} {l : List Nat}, Ch ((a, b) :: es) u l v →
      Ch es u l v ∨ u = a ∨ MoPath es u a := by
  intro u v l
  induction l generalizing u with
  | nil =>
    intro h
    rcases List.mem_cons.1 h with he | he
    · exact Or.inr (Or.inl (congrArg Prod.fst he))
    · exact Or.inl he
  | cons c l ih =>
    intro h
    rcases List.mem_cons.1 h.1 with he | he
    · exact Or.inr (Or.inl (congrArg Prod.fst he))
    · rcases ih h.2 with hch | hua | hpath
      · exact Or.inl ⟨he, hch⟩
      · exact Or.inr (Or.inr ⟨[], by simpa [Ch, hua] using he⟩)
      · obtain ⟨m, hm⟩ := hpath
        exact Or.inr (Or.inr ⟨c :: m, he, hm⟩)

/-- Factoring a path in `(a,b) :: es` at the last use of the new edge. -/
theorem ch_factor_dst {a b : Nat} {es : List (Nat × Nat)} :
    ∀ {u v : Nat} {l : List Nat}, Ch ((a, b) :: es) u l v →
      Ch es u l v ∨ b = v ∨ MoPath es b v := by
  intro u v l
  induction l generalizing u with
  | nil =>
    intro h
    rcases List.mem_cons.1 h with he | he
    · exact Or.inr (Or.inl (congrArg Prod.snd he).symm)
    · exact Or.inl he
  | cons c l ih =>
    intro h
    rcases ih h.2 with hch | hbv | hpath
    · rcases List.mem_cons.1 h.1 with he | he
      · have hbc : b = c := (congrArg Prod.snd he).symm
        exact Or.inr (Or.inr ⟨l, by simpa [hbc] using hch⟩)
      · exact Or.inl ⟨he, hch⟩
    · exact Or.inr (Or.inl hbv)
    · exact Or.inr (Or.inr hpath)

/-- Adding an edge whose reverse reachability check failed preserves
acyclicity. -/
theorem acyclic_addEdge {a b : Nat} {es : List (Nat × Nat)}
    (ha : Acyclic es) (hnr : checkReachable es b a = false) :
    Acyclic ((a, b) :: es) := by
  intro x l hch
  have hba : b = a ∨ MoPath es b a := by
    rcases ch_factor_src hch with hch0 | hxa | hpxa
    · exact absurd hch0 (ha x l)
    · rcases ch_factor_dst hch with hch0 | hbv | hpbx
      · exact absurd hch0 (ha x l)
      · exact Or.inl (hbv.trans hxa)
      · exact Or.inr (by simpa [hxa] using hpbx)
    · rcases ch_factor_dst hch with hch0 | hbv | hpbx
      · exact absurd hch0 (ha x l)
      · exact Or.inr (by simpa [hbv] using hpxa)
      · exact Or.inr (mopath_trans hpbx hpxa)
  rcases hba with rfl | hpath
  · simp [checkReachable, reachN_refl] at hnr
  · have := checkReachable_complete ha hpath
    simp [this] at hnr

/-- The per-step invariant: a graph whose cycle flag is clear is acyclic. -/
def CycleGraphInv (g : CycleGraph) : Prop :=
  g.hasCycle = false → Acyclic g.edges

theorem addEdge_inv {g : CycleGraph} (hg : CycleGraphInv g) (u v : Nat) :
    CycleGraphInv (g.addEdge u v).2 := by
  unfold CycleGraph.addEdge
  split
  · intro hfalse
    simp at hfalse
  · rename_i hnr
    intro hflag
    have hflag0 : g.hasCycle = false := hflag
    exact acyclic_addEdge (hg hflag0) (by simpa using hnr)

theorem applyEdges_inv (ops : List (Nat × Nat)) :
    CycleGraphInv (applyEdges ops) := by
  suffices h : ∀ g, CycleGraphInv g →
      CycleGraphInv (ops.foldl (fun g e => (g.addEdge e.1 e.2).2) g) by
    apply h
    intro _
    exact acyclic_nil
  induction ops with
  | nil => exact fun g hg => hg
  | cons e ops ih =>
    intro g hg
    exact ih _ (addEdge_inv hg e.1 e.2)

/-- Claim C1: at every observable moment during action processing (after
any sequence of edge insertions into the initially empty mo graph), if the
execution is still treated as feasible (cycle flag clear) then the mo graph
is acyclic; and any would-be cycle (the new edge closes a path from its
target back to its source) makes `addEdge` report failure and raise the
cycle flag, marking the execution infeasible. -/
theorem mo_graph_acyclic_in_feasible_executions :
    (∀ ops : List (Nat × Nat),
        (applyEdges ops).hasCycle = false → Acyclic (applyEdges ops).edges) ∧
    (∀ (g : CycleGraph) (u v : Nat), checkReachable g.edges v u = true →
        (g.addEdge u v).1 = false ∧ (g.addEdge u v).2.hasCycle = true) := by
  constructor
  · exact fun ops => applyEdges_inv ops
  · intro g u v hr
    simp [CycleGraph.addEdge, hr]

theorem mo_graph_acyclic_in_feasible_executions_witness :
    ((applyEdges [(0, 1), (1, 2)]).hasCycle = false ∧
      Acyclic (applyEdges [(0, 1), (1, 2)]).edges) ∧
    (checkReachable (applyEdges [(0, 1), (1, 2)]).edges 1 2 = true ∧
      ((applyEdges [(0, 1), (1, 2)]).addEdge 2 1).1 = false ∧
      ((applyEdges [(0, 1), (1, 2)]).addEdge 2 1).2.hasCycle = true) :=
  ⟨⟨by decide, mo_graph_acyclic_in_feasible_executions.1 _ (by decide)⟩,
    ⟨by decide,
      mo_graph_acyclic_in_feasible_executions.2 _ 2 1 (by decide)⟩⟩

/- ===================================================================
   Part 3.  Checker parameters, statistics, feasibility flags and the
   operations that may set them.  `model_params`, `execution_stats` and
   the flag fields are taken from src/model.h; the bodies of
   `isfeasible`, `check_recency` and `reset_to_initial_state` are not in
   the snapshot and are modelled from the specification.
   =================================================================== -/

/-- `struct model_params` from src/model.h (ints as `Int`, unsigned as
`Nat`). -/
structure model_params where
  maxreads : Int
  maxfuturedelay : Int
  fairwindow : Nat
  enabledcount : Nat
  bound : Nat
  maxfuturevalues : Int
  expireslop : Nat
  verbose : Int
deriving DecidableEq

/-- `struct execution_stats` from src/model.h. -/
structure execution_stats where
  num_total : Int
  num_infeasible : Int
  num_buggy_executions : Int
  num_complete : Int
deriving DecidableEq

/-- The per-execution state of the `ModelChecker` relevant to feasibility:
the mo graph and the three boolean flags of src/model.h, plus the
node stack and cumulative statistics which live outside the snapshot
region. -/
structure ModelCheckerState where
  mo_graph : CycleGraph
  failed_promise : Bool
  too_many_reads : Bool
  bad_synchronization : Bool
  node_stack : List Nat
  stats : execution_stats
deriving DecidableEq

/-- Modelled from the spec: the body of `ModelChecker::isfeasible` is not
in the repository snapshot (src/model.h only declares it); spec 4.G defines
it as "the conjunction of their absence" over `failed_promise`,
`too_many_reads`, `bad_synchronization` and cycle-in-mo. -/
def isfeasible (s : ModelCheckerState) : Bool :=
  !s.failed_promise && !s.too_many_reads && !s.bad_synchronization &&
    !s.mo_graph.hasCycle

/-- Claim C3: `isfeasible()` returns true if and only if none of
`failed_promise`, `too_many_reads`, `bad_synchronization` and cycle-in-mo
holds; it is exactly the conjunction of their absence. -/
theorem isfeasible_iff_no_flag :
    ∀ s : ModelCheckerState,
      isfeasible s = true ↔
        s.failed_promise = false ∧ s.too_many_reads = false ∧
        s.bad_synchronization = false ∧ s.mo_graph.hasCycle = false := by
  intro s
  simp [isfeasible, and_assoc]

/-- Modelled from the spec: the operations of the `ModelChecker` interface
that run during a single execution and may touch the feasibility state.
`set_bad_synchronization` is taken from its inline body in src/model.h;
the promise-expiration and recency flags and mo-edge insertion follow
spec 4.F, 4.G and 4.C; `record_action` stands for the bookkeeping
operations that leave the flags alone. -/
inductive CheckerOp where
  | set_bad_synchronization
  | set_failed_promise
  | set_too_many_reads
  | add_mo_edge (u v : Nat)
  | record_action (n : Nat)
deriving DecidableEq

/-- Modelled from the spec: the effect of each in-execution operation on
the checker state. -/
def applyOp (s : ModelCheckerState) : CheckerOp → ModelCheckerState
  | .set_bad_synchronization => { s with bad_synchronization := true }
  | .set_failed_promise => { s with failed_promise := true }
  | .set_too_many_reads => { s with too_many_reads := true }
  | .add_mo_edge u v => { s with mo_graph := (s.mo_graph.addEdge u v).2 }
  | .record_action n => { s with node_stack := n :: s.node_stack }

/-- Modelled from the spec: `ModelChecker::reset_to_initial_state`, run
between executions; the mo graph is reconstructed (spec 3, Lifecycles) and
the feasibility flags are cleared, while the node stack and statistics
survive. -/
def reset_to_initial_state (s : ModelCheckerState) : ModelCheckerState :=
  { s with mo_graph := CycleGraph.empty, failed_promise := false,
           too_many_reads := false, bad_synchronization := false }

theorem addEdge_hasCycle_mono {g : CycleGraph} {u v : Nat}
    (h : g.hasCycle = true) : (g.addEdge u v).2.hasCycle = true := by
  unfold CycleGraph.addEdge
  split
  · rfl
  · exact h

theorem applyOp_infeasible_mono (op : CheckerOp) (s : ModelCheckerState)
    (h : isfeasible s = false) : isfeasible (applyOp s op) = false := by
  simp only [isfeasible, Bool.and_eq_false_iff, Bool.not_eq_false'] at h ⊢
  cases op with
  | set_bad_synchronization => simp [applyOp]
  | set_failed_promise => simp [applyOp]
  | set_too_many_reads => simp [applyOp]
  | add_mo_edge u v =>
    rcases h with ((hf | ht) | hb) | hc
    · exact Or.inl (Or.inl (Or.inl hf))
    · exact Or.inl (Or.inl (Or.inr ht))
    · exact Or.inl (Or.inr hb)
    · exact Or.inr (addEdge_hasCycle_mono hc)
  | record_action n => simpa [applyOp] using h

/-- Claim C10: within a single execution no operation of the interface
clears a feasibility flag once set, so once `isfeasible()` is false it
stays false until the next execution; only `reset_to_initial_state`
(run between executions) makes the state feasible again. -/
theorem isfeasible_monotone_within_execution :
    (∀ (ops : List CheckerOp) (s : ModelCheckerState),
        isfeasible s = false → isfeasible (ops.foldl applyOp s) = false) ∧
    (∀ s : ModelCheckerState, isfeasible (reset_to_initial_state s) = true) := by
  constructor
  · intro ops
    induction ops with
    | nil => exact fun s h => h
    | cons op ops ih =>
      intro s h
      exact ih (applyOp s op) (applyOp_infeasible_mono op s h)
  · intro s
    simp [isfeasible, reset_to_initial_state, CycleGraph.empty]

theorem isfeasible_monotone_within_execution_witness :
    isfeasible { mo_graph := CycleGraph.empty, failed_promise := false,
                 too_many_reads := false, bad_synchronization := true,
                 node_stack := [], stats := ⟨0, 0, 0, 0⟩ } = false ∧
    isfeasible ([CheckerOp.record_action 7, CheckerOp.add_mo_edge 1 2].foldl
      applyOp
      { mo_graph := CycleGraph.empty, failed_promise := false,
        too_many_reads := false, bad_synchronization := true,
        node_stack := [], stats := ⟨0, 0, 0, 0⟩ }) = false :=
  ⟨by decide,
    isfeasible_monotone_within_execution.1
      [CheckerOp.record_action 7, CheckerOp.add_mo_edge 1 2] _ (by decide)⟩

/-- The number of consecutive most-recent selections of write `w` at the
head of a read's selection history. -/
def consecutiveSame (w : Nat) : List Nat → Nat
  | [] => 0
  | h :: t => if h = w then consecutiveSame w t + 1 else 0

/-- Modelled from the spec: `ModelChecker::check_recency` (declared in
src/model.h, body not in the snapshot).  Spec 4.G: "if the same read has
selected the same old write more than `maxreads` consecutive times while
newer writes were available, mark `too_many_reads` (infeasible)". -/
def check_recency (params : model_params) (rf : Nat) (history : List Nat)
    (newerAvailable : Bool) (s : ModelCheckerState) : ModelCheckerState :=
  if newerAvailable && ((consecutiveSame rf history : Int) > params.maxreads)
  then { s with too_many_reads := true }
  else s

/-- Claim C5: if the same read has selected the same old write more than
`params.maxreads` consecutive times while newer writes were available, the
checker sets `too_many_reads`, making the current execution infeasible;
otherwise the state is left unchanged. -/
theorem check_recency_marks_too_many_reads :
    ∀ (params : model_params) (rf : Nat) (history : List Nat)
      (s : ModelCheckerState),
      ((consecutiveSame rf history : Int) > params.maxreads →
        (check_recency params rf history true s).too_many_reads = true ∧
        isfeasible (check_recency params rf history true s) = false) ∧
      (∀ newer : Bool,
        ¬ ((consecutiveSame rf history : Int) > params.maxreads) →
        check_recency params rf history newer s = s) ∧
      (check_recency params rf history false s = s) := by
  intro params rf history s
  refine ⟨?_, ?_, ?_⟩
  · intro hgt
    constructor
    · simp [check_recency, hgt]
    · simp [check_recency, hgt, isfeasible]
  · intro newer hle
    simp [check_recency, hle]
  · simp [check_recency]

theorem check_recency_marks_too_many_reads_witness :
    (consecutiveSame 4 [4, 4, 4] : Int) > (2 : Int) ∧
    (check_recency ⟨2, 0, 0, 0, 0, 0, 0, 0⟩ 4 [4, 4, 4] true
        { mo_graph := CycleGraph.empty, failed_promise := false,
          too_many_reads := false, bad_synchronization := false,
          node_stack := [], stats := ⟨0, 0, 0, 0⟩ }).too_many_reads = true ∧
    isfeasible (check_recency ⟨2, 0, 0, 0, 0, 0, 0, 0⟩ 4 [4, 4, 4] true
        { mo_graph := CycleGraph.empty, failed_promise := false,
          too_many_reads := false, bad_synchronization := false,
          node_stack := [], stats := ⟨0, 0, 0, 0⟩ }) = false := by
  refine ⟨by decide, ?_⟩
  have h := (check_recency_marks_too_many_reads ⟨2, 0, 0, 0, 0, 0, 0, 0⟩ 4
    [4, 4, 4]
    { mo_graph := CycleGraph.empty, failed_promise := false,
      too_many_reads := false, bad_synchronization := false,
      node_stack := [], stats := ⟨0, 0, 0, 0⟩ }).1 (by decide)
  exact h

/-- Modelled from the spec: the treatment of a pending future
value/expiration pair for a read.  The comment on
`model_params::expireslop` in src/model.h: "Only generate a new future
value/expiration pair if the expiration time exceeds the existing one by
more than the slop value"; the code acting on it is not in the snapshot. -/
def extend_future_expiration (params : model_params)
    (existing proposed : Nat) : Nat :=
  if proposed > existing + params.expireslop then proposed else existing

/-- Claim C7: for a read with a pending future value/expiration pair, a new
expiration is generated only when the proposed expiration exceeds the
existing one by more than `params.expireslop`; otherwise the existing
promise is left unchanged. -/
theorem future_expiration_extended_only_beyond_slop :
    ∀ (params : model_params) (existing proposed : Nat),
      (proposed > existing + params.expireslop →
        extend_future_expiration params existing proposed = proposed) ∧
      (proposed ≤ existing + params.expireslop →
        extend_future_expiration params existing proposed = existing) := by
  intro params existing proposed
  constructor
  · intro h
    simp [extend_future_expiration, h]
  · intro h
    simp [extend_future_expiration, Nat.not_lt.2 h]

theorem future_expiration_extended_only_beyond_slop_witness :
    extend_future_expiration ⟨0, 0, 0, 0, 0, 0, 3, 0⟩ 10 14 = 14 ∧
    extend_future_expiration ⟨0, 0, 0, 0, 0, 0, 3, 0⟩ 10 13 = 10 :=
  ⟨(future_expiration_extended_only_beyond_slop ⟨0, 0, 0, 0, 0, 0, 3, 0⟩
      10 14).1 (by decide),
   (future_expiration_extended_only_beyond_slop ⟨0, 0, 0, 0, 0, 0, 3, 0⟩
      10 13).2 (by decide)⟩

/- ===================================================================
   Part 4.  Replay determinism and the snapshot boundary.
   =================================================================== -/

/-- Modelled from the spec: one forced exploration choice during replay:
the scheduled thread and the reads-from selection, as recorded on the Node
(spec 4.D, 4.E) and replayed up to `diverge`/`earliest_diverge`
(src/model.h). -/
structure ReplayChoice where
  tid : Nat
  rfChoice : Nat
deriving DecidableEq

/-- Modelled from the spec: `ClockVector::merge` — pointwise maximum
(spec 4.A). -/
def cv_merge : List Nat → List Nat → List Nat
  | [], c2 => c2
  | c1, [] => c1
  | a :: c1, b :: c2 => max a b :: cv_merge c1 c2

/-- Modelled from the spec: the engine state during one execution.  The
sequence counter, action trace (sequence number, thread, clock vector),
per-thread clocks and mo graph are the replayed data; the cumulative
statistics and the `earliest_diverge` bookkeeping pointer are exploration
metadata that must not influence the replayed trace. -/
structure EngineState where
  seqCounter : Nat
  actions : List (Nat × Nat × List Nat)
  threadClocks : List (List Nat)
  mo_graph : CycleGraph
  stats : execution_stats
  earliest_diverge : Option Nat
deriving DecidableEq

/-- Modelled from the spec: one iteration of the engine main loop under a
forced choice (spec 4.G, steps 1–4): assign the next sequence number,
build the action's clock vector by joining the thread's prior clock with
its own new timestamp, append the action to the trace, update the thread's
clock, and record the rf-implied mo edge from the chosen write. -/
def engine_step (s : EngineState) (c : ReplayChoice) : EngineState :=
  let seq := s.seqCounter + 1
  let prior := s.threadClocks.getD c.tid []
  let clock := cv_merge prior (List.replicate c.tid 0 ++ [seq])
  { seqCounter := seq
    actions := (seq, c.tid, clock) :: s.actions
    threadClocks := s.threadClocks.set c.tid clock
    mo_graph := (s.mo_graph.addEdge c.rfChoice seq).2
    stats := s.stats
    earliest_diverge := s.earliest_diverge }

/-- Modelled from the spec: replaying a fixed prefix of forced choices. -/
def engine_run (s : EngineState) (cs : List ReplayChoice) : EngineState :=
  cs.foldl engine_step s

/-- The observables named by the replay-determinism property: action
sequence numbers, action clock vectors, and mo-graph edges. -/
def replay_obs (s : EngineState) :
    List Nat × List (List Nat) × List (Nat × Nat) :=
  (s.actions.map (fun a => a.1), s.actions.map (fun a => a.2.2),
    s.mo_graph.edges)

/-- The replayed core of the engine state: everything the next step's
observables can depend on. -/
def replay_core (s : EngineState) :
    Nat × List (Nat × Nat × List Nat) × List (List Nat) × List (Nat × Nat) :=
  (s.seqCounter, s.actions, s.threadClocks, s.mo_graph.edges)

theorem addEdge_edges (g : CycleGraph) (u v : Nat) :
    (g.addEdge u v).2.edges = (u, v) :: g.edges := by
  unfold CycleGraph.addEdge
  split
  · rfl
  · rfl

theorem replay_obs_of_core {s1 s2 : EngineState}
    (h : replay_core s1 = replay_core s2) : replay_obs s1 = replay_obs s2 := by
  obtain ⟨h1, h2, h3, h4⟩ :
      s1.seqCounter = s2.seqCounter ∧ s1.actions = s2.actions ∧
      s1.threadClocks = s2.threadClocks ∧
      s1.mo_graph.edges = s2.mo_graph.edges := by
    simpa [replay_core, Prod.ext_iff] using h
  simp [replay_obs, h2, h4]

theorem engine_step_core {s1 s2 : EngineState} (c : ReplayChoice)
    (h : replay_core s1 = replay_core s2) :
    replay_core (engine_step s1 c) = replay_core (engine_step s2 c) := by
  obtain ⟨h1, h2, h3, h4⟩ :
      s1.seqCounter = s2.seqCounter ∧ s1.actions = s2.actions ∧
      s1.threadClocks = s2.threadClocks ∧
      s1.mo_graph.edges = s2.mo_graph.edges := by
    simpa [replay_core, Prod.ext_iff] using h
  simp [engine_step, replay_core, addEdge_edges, h1, h2, h3, h4]

/-- Claim C4: replay determinism.  Re-running the same fixed prefix of
forced thread choices and reads-from selections from two engine states
that agree on the replayed core (but may differ in statistics and in the
`earliest_diverge` bookkeeping) reproduces identical action sequence
numbers, clock vectors, and mo-graph edges. -/
theorem replay_determinism :
    ∀ (cs : List ReplayChoice) (s1 s2 : EngineState),
      replay_core s1 = replay_core s2 →
      replay_obs (engine_run s1 cs) = replay_obs (engine_run s2 cs) := by
  intro cs
  induction cs with
  | nil => exact fun s1 s2 h => replay_obs_of_core h
  | cons c cs ih =>
    intro s1 s2 h
    exact ih (engine_step s1 c) (engine_step s2 c) (engine_step_core c h)

theorem replay_determinism_witness :
    replay_obs (engine_run
      { seqCounter := 0, actions := [], threadClocks := [[], []],
        mo_graph := CycleGraph.empty, stats := ⟨0, 0, 0, 0⟩,
        earliest_diverge := none }
      [⟨0, 0⟩, ⟨1, 1⟩]) =
    replay_obs (engine_run
      { seqCounter := 0, actions := [], threadClocks := [[], []],
        mo_graph := CycleGraph.empty, stats := ⟨7, 3, 1, 2⟩,
        earliest_diverge := some 5 }
      [⟨0, 0⟩, ⟨1, 1⟩]) :=
  replay_determinism [⟨0, 0⟩, ⟨1, 1⟩]
    { seqCounter := 0, actions := [], threadClocks := [[], []],
      mo_graph := CycleGraph.empty, stats := ⟨0, 0, 0, 0⟩,
      earliest_diverge := none }
    { seqCounter := 0, actions := [], threadClocks := [[], []],
      mo_graph := CycleGraph.empty, stats := ⟨7, 3, 1, 2⟩,
      earliest_diverge := some 5 }
    (by decide)

/-- Modelled from the spec: the snapshot region of checker memory — the
snapshot-allocated structures (action trace, mo graph, feasibility flags)
that are rolled back between executions (spec 3, Lifecycles; spec 4.H). -/
structure SnapshotRegion where
  action_trace : List (Nat × Nat)
  mo_graph : CycleGraph
  flags : Bool × Bool × Bool
deriving DecidableEq

/-- Modelled from the spec: the checker's memory: the snapshot region plus
the allocations outside it — the NodeStack and the cumulative statistics,
which "live outside the snapshot region so they survive rollback"
(spec 4.H); src/model.h keeps `node_stack` and `stats` as plain members
outside `model_snapshot_members`. -/
structure CheckerMemory where
  snap : SnapshotRegion
  node_stack : List Nat
  stats : execution_stats
deriving DecidableEq

/-- Modelled from the spec: the snapshot collaborator's `checkpoint()` —
captures all allocations in the designated region (spec 6). -/
def checkpoint (m : CheckerMemory) : SnapshotRegion := m.snap

/-- Modelled from the spec: the snapshot collaborator's `restore(handle)`
— rolls the snapshot region back to the checkpoint; "allocations outside
the region (NodeStack, stats, configuration) are untouched" (spec 6). -/
def restore (cp : SnapshotRegion) (m : CheckerMemory) : CheckerMemory :=
  { m with snap := cp }

/-- Modelled from the spec: one unit of exploration work touching both
regions: it records an action and an mo edge in snapshot memory, pushes a
Node outside it, and counts statistics outside it. -/
def explore_step (m : CheckerMemory) (a : Nat × Nat) : CheckerMemory :=
  { snap := { m.snap with
              action_trace := a :: m.snap.action_trace,
              mo_graph := (m.snap.mo_graph.addEdge a.1 a.2).2 },
    node_stack := a.1 :: m.node_stack,
    stats := { m.stats with num_total := m.stats.num_total + 1 } }

/-- Claim C6: rollback restores only snapshot-region state: after the
engine rewinds to a checkpoint taken before a run of exploration steps,
the NodeStack and the cumulative statistics are exactly as after the run,
while the snapshot region is back to its checkpointed contents. -/
theorem rollback_restores_only_snapshot_region :
    ∀ (m : CheckerMemory) (ops : List (Nat × Nat)),
      (restore (checkpoint m) (ops.foldl explore_step m)).node_stack =
        (ops.foldl explore_step m).node_stack ∧
      (restore (checkpoint m) (ops.foldl explore_step m)).stats =
        (ops.foldl explore_step m).stats ∧
      (restore (checkpoint m) (ops.foldl explore_step m)).snap = m.snap := by
  intro m ops
  exact ⟨rfl, rfl, rfl⟩

/- ===================================================================
   Part 5.  Reads-from consistency.  src/model.h declares
   `build_reads_from_past` and `r_modification_order`; their bodies are
   modelled from spec 4.G (read and write processing) and proved to
   establish the rf-consistency property of spec 8.2.
   =================================================================== -/

/-- Modelled from the spec: a `ModelAction` restricted to the fields the
rf-consistency property mentions: sequence number, thread, read/write
kind, location, value and clock vector (spec 3, ModelAction). -/
structure MAction where
  seq : Nat
  tid : Nat
  is_write : Bool
  loc : Nat
  value : Nat
  clock : List Nat
deriving DecidableEq

/-- Modelled from the spec: happens-before via clock vectors
(spec 4.A: `happens_before(tid, clock)` is true iff `self[tid] ≥ clock`),
as a strict order: `a` happens-before `b` iff `b`'s clock at `a`'s thread
covers `a`'s timestamp and the actions are distinct. -/
def hb (a b : MAction) : Prop :=
  a.seq ≤ b.clock.getD a.tid 0 ∧ a.seq ≠ b.seq

/-- Boolean form of `hb`. -/
def hbB (a b : MAction) : Bool :=
  decide (a.seq ≤ b.clock.getD a.tid 0) && (a.seq != b.seq)

theorem hbB_eq_true {a b : MAction} : hbB a b = true ↔ hb a b := by
  simp [hbB, hb]

/-- Modelled from the spec: an execution's recorded actions together with
its mo graph's edges (over sequence numbers of writes). -/
structure Execution where
  acts : List MAction
  mo : List (Nat × Nat)
deriving DecidableEq

/-- The per-object history of writes: all writes to a location
(spec 3, Per-object history). -/
def writesTo (ex : Execution) (l : Nat) : List MAction :=
  ex.acts.filter (fun a => a.is_write && a.loc == l)

/-- Whether a sequence number belongs to a write of the execution. -/
def isWriteSeqB (ex : Execution) (s : Nat) : Bool :=
  ex.acts.any (fun a => a.is_write && a.seq == s)

/-- Well-formedness of a recorded execution, from the spec's invariants
(spec 3): sequence numbers are distinct, every clock-vector entry of an
action is bounded by the action's own sequence number, and the mo graph
relates writes. -/
def wf_exec (ex : Execution) : Bool :=
  decide ((ex.acts.map (fun a => a.seq)).Nodup) &&
  ex.acts.all (fun a => a.clock.all (fun c => decide (c ≤ a.seq))) &&
  ex.mo.all (fun e => isWriteSeqB ex e.1 && isWriteSeqB ex e.2)

/-- Modelled from the spec: the coherence the engine's
`w_modification_order` establishes on each location (spec 4.G, write
processing: "for every happens-before predecessor write p to the same
location, edge p → curr"): happens-before between same-location writes is
reflected in the mo graph. -/
def hb_implies_mo (ex : Execution) (l : Nat) : Bool :=
  (writesTo ex l).all (fun w => (writesTo ex l).all (fun w2 =>
    !(hbB w w2) || checkReachable ex.mo w.seq w2.seq))

/-- Modelled from the spec: `ModelChecker::build_reads_from_past`
(declared in src/model.h, body not in the snapshot).  Spec 4.G, read
processing: the candidate writes for a read are the earlier writes to its
location whose mo position is not strictly below a write already
happening-before the read. -/
def build_reads_from_past (ex : Execution) (r : MAction) : List MAction :=
  (writesTo ex r.loc).filter (fun w =>
    decide (w.seq < r.seq) &&
    !((writesTo ex r.loc).any (fun w2 =>
        checkReachable ex.mo w.seq w2.seq && w.seq != w2.seq && hbB w2 r)))

/-- The union ordering of spec 8.2: ordered before in mo ∪ hb. -/
def orderedBefore (ex : Execution) (a b : MAction) : Prop :=
  MoPath ex.mo a.seq b.seq ∨ hb a b

theorem ch_last_edge {es : List (Nat × Nat)} :
    ∀ {u v : Nat} {l : List Nat}, Ch es u l v → ∃ x, (x, v) ∈ es := by
  intro u v l
  induction l generalizing u with
  | nil => exact fun h => ⟨u, h⟩
  | cons c l ih => exact fun h => ih h.2

theorem mopath_irrefl {es : List (Nat × Nat)} (ha : Acyclic es) (u : Nat) :
    ¬ MoPath es u u := by
  rintro ⟨l, hl⟩
  exact ha u l hl

theorem clock_getD_le {c : List Nat} {n t : Nat}
    (h : c.all (fun x => decide (x ≤ n)) = true) : c.getD t 0 ≤ n := by
  rcases Nat.lt_or_ge t c.length with hlt | hge
  · rw [List.getD_eq_getElem _ _ hlt]
    exact of_decide_eq_true ((List.all_eq_true.1 h) _ (List.getElem_mem hlt))
  · rw [List.getD_eq_default _ _ hge]
    exact Nat.zero_le n

/-- Claim C2: for every read `r` of a feasible, well-formed execution, the
write selected from `build_reads_from_past` writes to `r`'s location, does
not happen-after `r`, and no write `w` on the same location satisfies
rf(r) ordered before `w` and `w` ordered before `r` in mo ∪ hb. -/
theorem rf_consistency (ex : Execution) (r rf : MAction)
    (hwf : wf_exec ex = true)
    (hco : hb_implies_mo ex r.loc = true)
    (hacyc : Acyclic ex.mo)
    (hr : r ∈ ex.acts) (hrread : r.is_write = false)
    (hrf : rf ∈ build_reads_from_past ex r) :
    rf.loc = r.loc ∧ rf.is_write = true ∧ ¬ hb r rf ∧
    ¬ ∃ w, w ∈ writesTo ex r.loc ∧ orderedBefore ex rf w ∧
      orderedBefore ex w r := by
  have hsplit := hwf
  simp only [wf_exec, Bool.and_eq_true, decide_eq_true_eq] at hsplit
  obtain ⟨⟨hwf1, hwf2b⟩, hwf3b⟩ := hsplit
  have hwf2 : ∀ a ∈ ex.acts,
      a.clock.all (fun c => decide (c ≤ a.seq)) = true :=
    List.all_eq_true.1 hwf2b
  have hwf3 : ∀ e ∈ ex.mo,
      isWriteSeqB ex e.1 = true ∧ isWriteSeqB ex e.2 = true := by
    intro e he
    have := List.all_eq_true.1 hwf3b e he
    simp only [Bool.and_eq_true] at this
    exact this
  have hseq_inj : ∀ a ∈ ex.acts, ∀ b ∈ ex.acts, a.seq = b.seq → a = b :=
    fun a ha b hbm hab => List.inj_on_of_nodup_map hwf1 ha hbm hab
  obtain ⟨hmem, hflt⟩ := List.mem_filter.1 hrf
  simp only [Bool.and_eq_true] at hflt
  obtain ⟨hlt, hnex⟩ := hflt
  have hltn : rf.seq < r.seq := of_decide_eq_true hlt
  have hnoany : ∀ w2 ∈ writesTo ex r.loc,
      ¬ (checkReachable ex.mo rf.seq w2.seq = true ∧ rf.seq ≠ w2.seq ∧
          hb w2 r) := by
    intro w2 hw2 ⟨hcr, hne, hhb⟩
    have : (writesTo ex r.loc).any (fun w2 =>
        checkReachable ex.mo rf.seq w2.seq && rf.seq != w2.seq && hbB w2 r) =
        false := by
      simpa using hnex
    have := List.any_eq_false.1 this w2 hw2
    simp only [Bool.and_eq_true, not_and] at this
    exact absurd (hbB_eq_true.2 hhb)
      (this ⟨hcr, by simpa using hne⟩)
  obtain ⟨hrfacts, hrfkind⟩ := List.mem_filter.1 hmem
  simp only [Bool.and_eq_true, beq_iff_eq] at hrfkind
  have hrfw : rf.is_write = true := hrfkind.1
  have hrfloc : rf.loc = r.loc := hrfkind.2
  refine ⟨hrfloc, hrfw, ?_, ?_⟩
  · rintro ⟨hle, _⟩
    have : rf.clock.getD r.tid 0 ≤ rf.seq := clock_getD_le (hwf2 rf hrfacts)
    omega
  · rintro ⟨w, hwm, h1, h2⟩
    have hwacts : w ∈ ex.acts := (List.mem_filter.1 hwm).1
    have hhbwr : hb w r := by
      rcases h2 with hpath | hhb
      · obtain ⟨l, hl⟩ := hpath
        obtain ⟨x, hx⟩ := ch_last_edge hl
        have hws : isWriteSeqB ex r.seq = true := (hwf3 _ hx).2
        simp only [isWriteSeqB, List.any_eq_true, Bool.and_eq_true,
          beq_iff_eq] at hws
        obtain ⟨a, ha, haw, has⟩ := hws
        have : a = r := hseq_inj a ha r hr has
        rw [this] at haw
        rw [hrread] at haw
        exact absurd haw (by simp)
      · exact hhb
    have hmo : checkReachable ex.mo rf.seq w.seq = true ∧ rf.seq ≠ w.seq := by
      rcases h1 with hpath | hhb
      · refine ⟨checkReachable_complete hacyc hpath, ?_⟩
        intro he
        exact mopath_irrefl hacyc rf.seq (he ▸ hpath)
      · constructor
        · have := List.all_eq_true.1 (List.all_eq_true.1 hco rf
            (hrfloc ▸ hmem)) w hwm
          simp only [Bool.or_eq_true] at this
          rcases this with hnb | hcr
          · exact absurd (hbB_eq_true.2 hhb) (by simpa using hnb)
          · exact hcr
        · exact hhb.2
    exact hnoany w hwm ⟨hmo.1, hmo.2, hhbwr⟩

/-- A two-action execution used to instantiate the rf-consistency
property: one write then one read of the same location. -/
def sampleWrite : MAction := ⟨1, 0, true, 0, 42, [1]⟩

/-- The read of the sample execution. -/
def sampleRead : MAction := ⟨2, 1, false, 0, 42, [1, 2]⟩

/-- The sample execution itself (empty mo graph). -/
def sampleExec : Execution := ⟨[sampleWrite, sampleRead], []⟩

theorem rf_consistency_witness :
    sampleWrite ∈ build_reads_from_past sampleExec sampleRead ∧
    (sampleWrite.loc = sampleRead.loc ∧ sampleWrite.is_write = true ∧
      ¬ hb sampleRead sampleWrite ∧
      ¬ ∃ w, w ∈ writesTo sampleExec sampleRead.loc ∧
        orderedBefore sampleExec sampleWrite w ∧
        orderedBefore sampleExec w sampleRead) :=
  ⟨by decide,
    rf_consistency sampleExec sampleRead sampleWrite (by decide) (by decide)
      acyclic_nil (by decide) (by decide) (by decide)⟩
